import Mathlib

/-
Verification development for an LALR(1) parser generator.

The development shallowly embeds the table-construction core
(src/lr/lr1.py), the grammar right-hand-side representation
(src/grammar/core.py, class Expansion), the table serialization
(src/gen/lalr1_gen.py) and the tokenizer (src/tokenizer/tokenizer.py).

Modelling conventions:
- a grammar symbol is a tagged name (terminal or non-terminal); the two
  process-wide markers EOF and ε are terminals, as in the source where
  Marker is a subclass of Terminal.  The source compares symbols by name
  alone; the model compares them structurally, which agrees with the
  source whenever no name is shared between a terminal and a
  non-terminal (the spec states the variant tag is derivable from
  context).
- a production right-hand side (Expansion / Rule) is a plain list of
  symbols; ε may occur inside it, and the length / iteration / hash
  views hide it, exactly as in Expansion.__len__, __iter__, __hash__.
- an LR(1) item is the NamedTuple (name, dot, rule, lookahead) of
  src/lr/lr1.py.
- an LRState (class of the absent module lr/core.py) is modelled as a
  duplicate-free insertion-ordered list of items with append-if-absent;
  two states are the same state iff they hold the same items.
- Python dict assignment overwrites, so the ACTION/GOTO table is
  modelled by the ordered list of writes the construction performs;
  the table lookup returns the last write for a key, which is exactly
  the dict the source ends with.
- the Grammar class, its derived sets and first_sentential_form are not
  part of src/; they are modelled from the spec, see the doc comment on
  Grammar below.
-/

deriving instance DecidableEq for Except

namespace PDA

/-- Grammar symbol: a terminal or a non-terminal, identified by name
(Symbol in src/grammar/core.py; markers are terminals). -/
inductive Sym : Type where
  | t (name : String) : Sym
  | nt (name : String) : Sym
deriving DecidableEq, Repr

/-- Name of a symbol (Symbol.name / Symbol.id in the source). -/
def symName : Sym → String
  | .t s => s
  | .nt s => s

/-- Whether a symbol is a non-terminal (isinstance(x, NonTerminal)). -/
def isNT : Sym → Bool
  | .t _ => false
  | .nt _ => true

/-- The end-of-stream marker: EOF = Marker("eof", ...) in src/grammar/core.py. -/
def eofSym : Sym := Sym.t "eof"

/-- The empty-string marker: EMPTY = Marker("ε", ...) in src/grammar/core.py. -/
def emptySym : Sym := Sym.t "ε"

/-! Expansion: a production right-hand side, src/grammar/core.py.
An Expansion is a list of symbols; ε can occur inside it.  The public
views hide ε: iteration filters it out, length subtracts its
occurrences, hashing hashes the filtered tuple. -/

/-- Expansion.__iter__: iteration skips the ε marker
(filter(lambda token: token is not EMPTY, ...)). -/
def expIter (l : List Sym) : List Sym := l.filter (fun s => s ≠ emptySym)

/-- Expansion.__len__: raw length minus the number of ε occurrences
(super().__len__() - self.count(EMPTY)). -/
def expLen (l : List Sym) : Nat := l.length - l.count emptySym

/-- Model of Python's hash of a name: an iterated polynomial over the
character codes. -/
def nameVal (s : String) : Nat :=
  s.toList.foldl (fun a c => a * 131 + c.toNat) 7

/-- Expansion.__hash__: hash(tuple(self)), where tuple(self) uses the
ε-skipping iterator; modelled by a polynomial hash over the filtered
sequence of names. -/
def expHash (l : List Sym) : Nat :=
  (expIter l).foldl (fun a s => a * 1000003 + nameVal (symName s)) 11

/-! Actions and their serialized encoding.
Action is the sum type of lr/core.py (absent from src/); the
constructors and payloads are fixed by how src/lr/lr1.py builds them:
Shift and Goto carry the successor state (serialized through its id,
modelled as the index in the discovered-state list), Reduce carries the
lhs and the rule (Reduce(item.name, item.rule)), Accept is a constant. -/

/-- ACTION/GOTO table entry as built by LR1ParsingTable.construct. -/
inductive Action : Type where
  | shift (j : Nat) : Action
  | gotoA (j : Nat) : Action
  | reduce (lhs : Sym) (rule : List Sym) : Action
  | accept : Action
deriving DecidableEq, Repr

/-- Serialized value of a table cell, src/gen/lalr1_gen.py: either an
integer or a (lhs name, rhs length) pair. -/
inductive EncVal : Type where
  | int (v : Int) : EncVal
  | pair (lhsName : String) (rhsLen : Nat) : EncVal
deriving DecidableEq, Repr

/-- Encoding of one action, src/gen/lalr1_gen.py lines 48-58:
Shift j ↦ (j << 1) | 1, Goto j ↦ j << 1, Reduce ↦ (lhs.name, rhs
length), Accept ↦ -1.  The rhs length recorded for a Reduce is the
ε-free length len(rule) (Expansion.__len__). -/
def encodeAction : Action → EncVal
  | .shift j => .int (2 * (j : Int) + 1)
  | .gotoA j => .int (2 * (j : Int))
  | .reduce lhs rule => .pair (symName lhs) (expLen rule)
  | .accept => .int (-1)

/-- Action variant as the spec's serialized data model sees it
(Reduce carries (lhs name, rhs length) rather than the rule object). -/
inductive SerAction : Type where
  | shift (j : Nat) : SerAction
  | gotoA (j : Nat) : SerAction
  | reduce (lhsName : String) (rhsLen : Nat) : SerAction
  | accept : SerAction
deriving DecidableEq, Repr

/-- View of an Action at the serialization level. -/
def serOf : Action → SerAction
  | .shift j => .shift j
  | .gotoA j => .gotoA j
  | .reduce lhs rule => .reduce (symName lhs) (expLen rule)
  | .accept => .accept

/-- Modelled from the spec: the decoder that a table consumer runs
(the runtime driver is external to src/).  It uses only the encoded
value and whether the keying symbol is a terminal: on a terminal key,
-1 is Accept, an odd integer 2j+1 is Shift j, and a pair is Reduce; on
a non-terminal key an even integer 2j is Goto j. -/
def decodeAction (keyIsTerminal : Bool) : EncVal → Option SerAction
  | .pair n k => if keyIsTerminal then some (.reduce n k) else none
  | .int v =>
      if keyIsTerminal then
        if v = -1 then some .accept
        else if v % 2 = 1 ∧ 0 ≤ v then some (.shift ((v / 2).toNat)) else none
      else
        if v % 2 = 0 ∧ 0 ≤ v then some (.gotoA ((v / 2).toNat)) else none

/-- Whether an action may be keyed on a symbol of the given kind:
Shift/Reduce/Accept cells are keyed on terminals, Goto cells on
non-terminals (spec section 3, ACTION/GOTO table). -/
def keyKindOK : Action → Bool → Prop
  | .shift _, kt => kt = true
  | .reduce _ _, kt => kt = true
  | .accept, kt => kt = true
  | .gotoA _, kt => kt = false

/-! Tokenizer comment handling, src/tokenizer/tokenizer.py.
The tokenizer works on self._code = code + "\n" (the constructor
appends a newline, line 41).  handle_comment (lines 138-157) looks up
the next newline in the remaining code with str.index, which raises
ValueError when "\n" is absent; the subsequent `if end_comment_pos ==
-1: raise ValueError()` branch tests index's result against -1. -/

/-- Tokenizer.handle_comment, restricted to the part that can raise:
str.index("\n") on the remaining code (raises when absent), the dead
test of its result against -1, and the comment slice remaining[:pos].
The consumed-position bookkeeping is elided; it cannot raise. -/
def handleComment (rem : List Char) : Except Unit (List Char) :=
  match rem.findIdx? (fun c => c = '\n') with
  | none => .error ()
  | some p => if (p : Int) = -1 then .error () else .ok (rem.take p)

/-- The code string the tokenizer scans: the input with a newline
appended (Tokenizer.__init__ line 41, self._code = code + "\n"). -/
def tokCode (input : List Char) : List Char := input ++ ['\n']

/-! Grammar.  The Grammar class itself is not under src/ (only its
callers are), so it is modelled from the spec. -/

/-- Modelled from the spec: the Grammar object consumed by
LR1ParsingTable (the Grammar class and its derived sets are absent from
src/).  Per spec section 3 it holds a distinguished start symbol (the
augmented start), the ordered productions, the set of terminals, the
set of non-terminals, and the memoized query first_of over sentential
forms (spec: FIRST* of X1...Xn, a set of terminals).  The two symbol
sets are kept as lists because every iteration over them in the source
walks some enumeration of a Python set; theorems about order-dependent
behaviour take the enumeration explicitly.  The field firstSeq_sub
records the spec's typing of FIRST*: it returns a set of terminals of
the grammar. -/
structure Grammar where
  start : Sym
  rules : List (Sym × List Sym)
  terminalsL : List Sym
  nonterminalsL : List Sym
  firstSeq : List Sym → List Sym
  firstSeq_sub : ∀ γ s, s ∈ firstSeq γ → s ∈ terminalsL

/-- Alternatives of a non-terminal: self.grammar[x], the ordered list
of right-hand sides whose lhs is x. -/
def prods (g : Grammar) (B : Sym) : List (List Sym) :=
  (g.rules.filter (fun r => r.1 = B)).map (fun r => r.2)

/-! LR(1) items, src/lr/lr1.py lines 8-32. -/

/-- LR1Item(name, dot, rule, lookahead), src/lr/lr1.py line 8. -/
structure LR1Item where
  name : Sym
  dot : Nat
  rule : List Sym
  lookahead : Sym
deriving DecidableEq, Repr

/-- LR1Item.completed: self.dot >= len(self.rule), where len is the
ε-free Expansion length. -/
def completed (it : LR1Item) : Bool := expLen it.rule ≤ it.dot

/-- LR1Item.advance: move the dot one symbol right. -/
def advance (it : LR1Item) : LR1Item :=
  { it with dot := it.dot + 1 }

/-- The symbol after the dot, rule[dot] with raw list indexing (the
default is never reached on an unfinished item of an ε-free rule). -/
def dotSym (it : LR1Item) : Sym := it.rule.getD it.dot emptySym

/-- LRState.append (lr/core.py, absent from src/): add an item unless
it is already present; the state is an insertion-ordered set. -/
def stappend (s : List LR1Item) (it : LR1Item) : List LR1Item :=
  if it ∈ s then s else s ++ [it]

/-- LRState.yield_unfinished: the items whose dot is not at the end. -/
def yieldUnfinished (s : List LR1Item) : List LR1Item :=
  s.filter (fun it => !(completed it))

/-- LRState equality: two states hold the same items (the source keys
states by content; states arising here are closures, for which equality
of item sets coincides with equality of kernels). -/
def stEq (a b : List LR1Item) : Bool := decide (a ⊆ b) && decide (b ⊆ a)

/-! Closure, src/lr/lr1.py lines 47-67: repeatedly, for each unfinished
item (A → α · B β, a) with B a non-terminal, for each production
B → γ of the grammar, for each w in first_sentential_form(β + [a]),
append (B → · γ, w); stop when the set stops growing. -/

/-- Items one closure inspection of a single item appends: nothing for
a finished item or a terminal after the dot; otherwise (B → · γ, w)
for every production γ of B and every w ∈ FIRST*(β ++ [lookahead]). -/
def genOfItem (g : Grammar) (it : LR1Item) : List LR1Item :=
  if completed it then []
  else if isNT (dotSym it) then
    (prods g (dotSym it)).flatMap (fun γ =>
      (g.firstSeq (it.rule.drop (it.dot + 1) ++ [it.lookahead])).map
        (fun w => ⟨dotSym it, 0, γ, w⟩))
  else []

/-- One pass of the closure loop: scan the current items and append
everything they generate. -/
def closureStep (g : Grammar) (s : List LR1Item) : List LR1Item :=
  s.foldl (fun acc it => (genOfItem g it).foldl stappend acc) s

/-- Fuelled iteration of closureStep until a pass adds nothing. -/
def closureAux (g : Grammar) : Nat → List LR1Item → List LR1Item
  | 0, s => s
  | n + 1, s =>
      let s2 := closureStep g s
      if s2 = s then s else closureAux g n s2

/-- Every item a closure pass can ever append: (B → · γ, b) with
B → γ a production and b a terminal of the grammar. -/
def allGen (g : Grammar) : List LR1Item :=
  g.rules.flatMap (fun r => g.terminalsL.map (fun b => ⟨r.1, 0, r.2, b⟩))

/-- LR1ParsingTable.closure: iterate the closure loop to its fixed
point.  The fuel bounds the number of growing passes by the size of
the finite universe the passes draw from, so the fixed point is always
reached. -/
def closure (g : Grammar) (s : List LR1Item) : List LR1Item :=
  closureAux g ((s ++ allGen g).toFinset.card + 1) s

/-- LR1ParsingTable.goto, src/lr/lr1.py lines 69-79: advance every
unfinished item whose dot symbol is sym, then take the closure. -/
def goto (g : Grammar) (s : List LR1Item) (sym : Sym) : List LR1Item :=
  closure g
    ((yieldUnfinished s).foldl
      (fun acc it => if dotSym it = sym then stappend acc (advance it) else acc)
      [])

/-- LR1ParsingTable.init_kernel, src/lr/lr1.py lines 36-45: the start
item (S' → · α EOF, EOF) where α is the first alternative of the
augmented start symbol and EOF is appended by append_marker. -/
def initKernel (g : Grammar) : List LR1Item :=
  [⟨g.start, 0, ((prods g g.start).headD []) ++ [eofSym], eofSym⟩]

/-- One pass of the get_items loop, src/lr/lr1.py lines 96-104: for
every state in the snapshot taken at the start of the pass and every
symbol X in the given enumeration of non_terminals | terminals, compute
goto(state, X) and append it when it is non-empty and not yet known.
The enumeration is a parameter because the source iterates a Python
set, whose order is not fixed by the grammar. -/
def discoverRound (g : Grammar) (order : List Sym)
    (sts : List (List LR1Item)) : List (List LR1Item) :=
  sts.foldl
    (fun acc I =>
      order.foldl
        (fun acc2 X =>
          let nx := goto g I X
          if nx ≠ [] ∧ ¬ (acc2.any (fun s2 => stEq s2 nx)) then acc2 ++ [nx]
          else acc2)
        acc)
    sts

/-- Fuelled iteration of discoverRound until a pass adds nothing. -/
def getItemsAux (g : Grammar) (order : List Sym) :
    Nat → List (List LR1Item) → List (List LR1Item)
  | 0, sts => sts
  | n + 1, sts =>
      let sts2 := discoverRound g order sts
      if sts2 = sts then sts else getItemsAux g order n sts2

/-- Universe of items that can appear in any discovered state: a rule
of the grammar or the augmented start rule, any dot position, any
terminal or EOF lookahead. -/
def univList (g : Grammar) : List LR1Item :=
  ((g.start, ((prods g g.start).headD []) ++ [eofSym]) :: g.rules).flatMap
    (fun r =>
      (List.range (r.2.length + 1)).flatMap
        (fun d => (eofSym :: g.terminalsL).map (fun b => ⟨r.1, d, r.2, b⟩)))

/-- LR1ParsingTable.get_items, src/lr/lr1.py lines 94-105: start from
the closure of the initial kernel and keep a pass going while it grows;
the returned list order is the discovery (insertion) order, which is
what assigns state ids.  The fuel bounds the number of growing passes
by the number of distinct item sets over the finite item universe. -/
def getItems (g : Grammar) (order : List Sym) : List (List LR1Item) :=
  getItemsAux g order (2 ^ (univList g).toFinset.card + 1)
    [closure g (initKernel g)]

/-! ACTION/GOTO table construction, src/lr/lr1.py lines 107-129.
The table is a Python dict keyed by (state, symbol id); dict assignment
overwrites silently.  The model records the ordered list of writes the
two loops of construct perform; the resulting dict maps a key to the
last write on it.  States are keyed by their index (= id) in the
discovered list. -/

/-- The ordered list of (key, action) writes LR1ParsingTable.construct
performs: for each state (in order) the item loop writes Accept for a
completed augmented item with EOF lookahead, Reduce(name, rule) for any
other completed item whose lhs is not the start symbol, and Shift(j)
for an unfinished item, keyed on the dot symbol, for every known state
j equal to goto(state, dot symbol); then the non-terminal loop writes
Goto(j) for every non-terminal and every known state j equal to
goto(state, nt).  No write is guarded by presence of the key. -/
def constructWrites (g : Grammar) (sts : List (List LR1Item)) :
    List ((Nat × String) × Action) :=
  sts.enum.flatMap (fun p =>
    (p.2.flatMap (fun it =>
      if completed it then
        if it.name = g.start ∧ it.lookahead = eofSym then
          [((p.1, symName eofSym), Action.accept)]
        else if it.name ≠ g.start then
          [((p.1, symName it.lookahead), Action.reduce it.name it.rule)]
        else []
      else
        sts.enum.flatMap (fun q =>
          if stEq (goto g p.2 (dotSym it)) q.2 then
            [((p.1, symName (dotSym it)), Action.shift q.1)]
          else [])))
    ++ g.nonterminalsL.flatMap (fun ntS =>
        sts.enum.flatMap (fun q =>
          if stEq (goto g p.2 ntS) q.2 then
            [((p.1, symName ntS), Action.gotoA q.1)]
          else [])))

/-- The dict the writes build: the last write on a key wins (Python
dict assignment overwrites). -/
def tableGet (ws : List ((Nat × String) × Action)) (k : Nat × String) :
    Option Action :=
  ((ws.filter (fun e => e.1 = k)).getLast?).map (fun e => e.2)

/-- LR1ParsingTable.compute_reduce_actions, src/lr/lr1.py lines 81-92:
for every state and every finished item, write Reduce(name, rule) at
(state, lookahead id) if that key is free, otherwise raise (the
shift/reduce conflict error naming the state, the symbol and both
actions).  Modelled over an arbitrary starting table. -/
def computeReduceActions (g : Grammar) (sts : List (List LR1Item))
    (init : List ((Nat × String) × Action)) :
    Except Unit (List ((Nat × String) × Action)) :=
  sts.enum.foldlM
    (fun tbl p =>
      (p.2.filter (fun it => completed it)).foldlM
        (fun tbl2 it =>
          if (tableGet tbl2 (p.1, symName it.lookahead)).isNone then
            pure (tbl2 ++ [((p.1, symName it.lookahead),
                            Action.reduce it.name it.rule)])
          else Except.error ())
        tbl)
    init

/-! Full tokenizer loop, src/tokenizer/tokenizer.py lines 100-136.
Tokenizer._tokenize scans self._code = code + "\n" from the current
offset: first the greedy keyword attempt over the named tokens sorted
by decreasing key length, then non-newline whitespace, then comments,
then newline, then _match_number_or_unknown; each iteration yields one
token and consumes at least one character, and after the loop the EOF
terminal is yielded once.  The regex-driven _match_number_or_unknown is
external library behaviour; it is a parameter of the model, constrained
in the theorems to return a non-empty lexeme as the source guarantees
(both its branches produce a lexeme of at least one character). -/

/-- Token as the tokenizer contract sees it: a kind and a lexeme (the
location bookkeeping does not influence control flow and is elided). -/
structure Token where
  kind : String
  lexeme : List Char
deriving DecidableEq, Repr

/-- The EOF terminal yielded after the loop (EOF from the grammar
package; its token_type is "eof"). -/
def eofToken : Token := ⟨"eof", []⟩

/-- Tokenizer configuration: the named_tokens dict (as an ordered
association list) and the model of _match_number_or_unknown, returning
(token type, lexeme) for the remaining code. -/
structure TokCfg where
  named : List (List Char × String)
  matchOther : List Char → String × List Char

/-- Whether pre is a leading segment of s (str.startswith). -/
def startsWith (pre s : List Char) : Bool := s.take pre.length = pre

/-- The named tokens sorted by decreasing key length (the sorted(...,
key=len, reverse=True) at the top of _tokenize). -/
def sortedNamed (cfg : TokCfg) : List (List Char × String) :=
  cfg.named.mergeSort (fun a b => b.1.length ≤ a.1.length)

/-- One iteration of the _tokenize while loop on a non-empty remaining
code: the produced token and the total number of characters consumed
(the handler's skip_n_chars plus the final _to_next_char).  The comment
branch consumes the comment and the newline after it and can in
principle raise through handle_comment, hence the Except. -/
def tokStep (cfg : TokCfg) (rem : List Char) : Except Unit (Token × Nat) :=
  match (sortedNamed cfg).find? (fun p => startsWith p.1 rem) with
  | some p => .ok (⟨p.2, p.1⟩, p.1.length)
  | none =>
      match rem with
      | [] => .error ()
      | c :: _ =>
          if c ≠ '\n' ∧ c.isWhitespace then .ok (⟨"whitespace", [c]⟩, 1)
          else if c = '#' then
            (handleComment rem).map (fun comment =>
              (⟨"comment", comment⟩, comment.length + 1))
          else if c = '\n' then .ok (⟨"newline", [c]⟩, 1)
          else
            let r := cfg.matchOther rem
            .ok (⟨r.1, r.2⟩, r.2.length)

/-- Fuelled _tokenize loop: while characters remain, take one step and
recurse past the consumed characters; when the code is exhausted, yield
the single EOF token.  Fuel exhaustion (error on the 0 case) models a
non-advancing configuration, which the theorems exclude. -/
def tokenizeAux (cfg : TokCfg) : Nat → List Char → Except Unit (List Token)
  | _, [] => .ok [eofToken]
  | 0, _ :: _ => .error ()
  | n + 1, c :: rest =>
      match tokStep cfg (c :: rest) with
      | .error e => .error e
      | .ok (tok, k) =>
          (tokenizeAux cfg n ((c :: rest).drop k)).map (fun ts => tok :: ts)

/-- Tokenizer._tokenize on an input string: scan code + "\n" from the
start.  The code length is enough fuel because every step consumes at
least one character. -/
def tokenize (cfg : TokCfg) (input : List Char) : Except Unit (List Token) :=
  tokenizeAux cfg (tokCode input).length (tokCode input)

/-! Concrete grammars used to run the construction end to end. -/

/-- FIRST* for sentential forms that begin with a terminal: the
singleton of that terminal (a terminal is never nullable, so FIRST*
stops at it).  The concrete grammars below only ever query FIRST* on
such forms: every alternative with a non-terminal at the dot has a
terminal right after it, and the appended lookahead is a terminal. -/
def headFirstSeq (terms : List Sym) : List Sym → List Sym
  | [] => []
  | x :: _ => if x ∈ terms then [x] else []

/-- Grammar with augmented start S0 → S, S → i: the smallest pipeline
exercising EOF handling (spec scenario 6). -/
def gAcc : Grammar where
  start := Sym.nt "S0"
  rules := [(Sym.nt "S0", [Sym.nt "S"]), (Sym.nt "S", [Sym.t "i"])]
  terminalsL := [Sym.t "i", eofSym]
  nonterminalsL := [Sym.nt "S0", Sym.nt "S"]
  firstSeq := headFirstSeq [Sym.t "i", eofSym]
  firstSeq_sub := by
    intro γ s hs
    cases γ with
    | nil => simp [headFirstSeq] at hs
    | cons x xs =>
        simp only [headFirstSeq] at hs
        split at hs
        · simp only [List.mem_singleton] at hs
          subst hs; assumption
        · simp at hs

/-- One enumeration of the symbol set of gAcc. -/
def oAcc : List Sym := [Sym.nt "S0", Sym.nt "S", Sym.t "i", eofSym]

/-- The ambiguous grammar of spec scenario 4, augmented:
E0 → E, E → E + E | i.  Its LR(1) automaton has a shift/reduce
conflict on "+". -/
def gAmb : Grammar where
  start := Sym.nt "E0"
  rules := [(Sym.nt "E0", [Sym.nt "E"]),
            (Sym.nt "E", [Sym.nt "E", Sym.t "+", Sym.nt "E"]),
            (Sym.nt "E", [Sym.t "i"])]
  terminalsL := [Sym.t "+", Sym.t "i", eofSym]
  nonterminalsL := [Sym.nt "E0", Sym.nt "E"]
  firstSeq := headFirstSeq [Sym.t "+", Sym.t "i", eofSym]
  firstSeq_sub := by
    intro γ s hs
    cases γ with
    | nil => simp [headFirstSeq] at hs
    | cons x xs =>
        simp only [headFirstSeq] at hs
        split at hs
        · simp only [List.mem_singleton] at hs
          subst hs; assumption
        · simp at hs

/-- One enumeration of the symbol set of gAmb. -/
def oAmb : List Sym :=
  [Sym.nt "E0", Sym.nt "E", Sym.t "+", Sym.t "i", eofSym]

/-- Grammar with augmented start S0 → S, S → a | b: two sibling
successors of the start state, so the discovery order of states follows
the enumeration order of the symbol set. -/
def gDet : Grammar where
  start := Sym.nt "S0"
  rules := [(Sym.nt "S0", [Sym.nt "S"]),
            (Sym.nt "S", [Sym.t "a"]),
            (Sym.nt "S", [Sym.t "b"])]
  terminalsL := [Sym.t "a", Sym.t "b", eofSym]
  nonterminalsL := [Sym.nt "S0", Sym.nt "S"]
  firstSeq := headFirstSeq [Sym.t "a", Sym.t "b", eofSym]
  firstSeq_sub := by
    intro γ s hs
    cases γ with
    | nil => simp [headFirstSeq] at hs
    | cons x xs =>
        simp only [headFirstSeq] at hs
        split at hs
        · simp only [List.mem_singleton] at hs
          subst hs; assumption
        · simp at hs

/-- An enumeration of the symbol set of gDet that visits a before b. -/
def oDet1 : List Sym :=
  [Sym.nt "S0", Sym.nt "S", Sym.t "a", Sym.t "b", eofSym]

/-- The same symbol set enumerated with b before a (a different run of
the Python set iteration). -/
def oDet2 : List Sym :=
  [Sym.nt "S0", Sym.nt "S", Sym.t "b", Sym.t "a", eofSym]

/-- A concrete tokenizer configuration: one named token "+" ↦ "plus",
and a fallback matcher that consumes one character as a "char" token
(the simplest behaviour _match_number_or_unknown can exhibit). -/
def cfgW : TokCfg where
  named := [(['+'], "plus")]
  matchOther := fun rem => ("char", rem.take 1)

/-! Lemmas about LRState.append and the closure loop. -/

theorem mem_stappend {s : List LR1Item} {it x : LR1Item} :
    x ∈ stappend s it ↔ x ∈ s ∨ x = it := by
  unfold stappend
  split
  · rename_i h
    constructor
    · exact Or.inl
    · rintro (hx | rfl)
      · exact hx
      · exact h
  · simp

theorem mem_foldl_stappend {l acc : List LR1Item} {x : LR1Item} :
    x ∈ l.foldl stappend acc ↔ x ∈ acc ∨ x ∈ l := by
  induction l generalizing acc with
  | nil => simp
  | cons a l ih =>
      rw [List.foldl_cons, ih, mem_stappend]
      simp only [List.mem_cons]
      tauto

theorem mem_genFold {f : LR1Item → List LR1Item} {s acc : List LR1Item}
    {x : LR1Item} :
    x ∈ s.foldl (fun acc2 it => (f it).foldl stappend acc2) acc ↔
      x ∈ acc ∨ ∃ it ∈ s, x ∈ f it := by
  induction s generalizing acc with
  | nil => simp
  | cons a s ih =>
      rw [List.foldl_cons, ih, mem_foldl_stappend]
      simp only [List.mem_cons]
      constructor
      · rintro ((h | h) | ⟨it, hit, hx⟩)
        · exact Or.inl h
        · exact Or.inr ⟨a, Or.inl rfl, h⟩
        · exact Or.inr ⟨it, Or.inr hit, hx⟩
      · rintro (h | ⟨it, (rfl | hit), hx⟩)
        · exact Or.inl (Or.inl h)
        · exact Or.inl (Or.inr hx)
        · exact Or.inr ⟨it, hit, hx⟩

theorem mem_closureStep {g : Grammar} {s : List LR1Item} {x : LR1Item} :
    x ∈ closureStep g s ↔ x ∈ s ∨ ∃ it ∈ s, x ∈ genOfItem g it := by
  unfold closureStep
  exact mem_genFold

theorem foldl_stappend_shape (l acc : List LR1Item) :
    ∃ news, l.foldl stappend acc = acc ++ news ∧ ∀ x ∈ news, x ∉ acc := by
  induction l generalizing acc with
  | nil => exact ⟨[], by simp⟩
  | cons a l ih =>
      rw [List.foldl_cons]
      unfold stappend
      split
      · exact ih acc
      · rename_i ha
        obtain ⟨n2, h2, hn2⟩ := ih (acc ++ [a])
        refine ⟨a :: n2, by simpa using h2, ?_⟩
        intro x hx
        rcases List.mem_cons.mp hx with rfl | hx
        · exact ha
        · intro hxa
          exact hn2 x hx (List.mem_append_left _ hxa)

theorem genFold_shape {f : LR1Item → List LR1Item} (s acc : List LR1Item) :
    ∃ news, s.foldl (fun acc2 it => (f it).foldl stappend acc2) acc
        = acc ++ news ∧ ∀ x ∈ news, x ∉ acc := by
  induction s generalizing acc with
  | nil => exact ⟨[], by simp⟩
  | cons a s ih =>
      rw [List.foldl_cons]
      obtain ⟨n1, h1, hn1⟩ := foldl_stappend_shape (f a) acc
      rw [h1]
      obtain ⟨n2, h2, hn2⟩ := ih (acc ++ n1)
      refine ⟨n1 ++ n2, by rw [h2, List.append_assoc], ?_⟩
      intro x hx
      rcases List.mem_append.mp hx with hx | hx
      · exact hn1 x hx
      · intro hxa
        exact hn2 x hx (List.mem_append_left _ hxa)

theorem closureStep_shape (g : Grammar) (s : List LR1Item) :
    ∃ news, closureStep g s = s ++ news ∧ ∀ x ∈ news, x ∉ s := by
  unfold closureStep
  exact genFold_shape s s

theorem mem_genOfItem {g : Grammar} {it x : LR1Item} :
    x ∈ genOfItem g it ↔
      completed it = false ∧ isNT (dotSym it) = true ∧
        ∃ γ ∈ prods g (dotSym it),
          ∃ b ∈ g.firstSeq (it.rule.drop (it.dot + 1) ++ [it.lookahead]),
            x = ⟨dotSym it, 0, γ, b⟩ := by
  unfold genOfItem
  split
  · rename_i h
    simp only [List.not_mem_nil, false_iff]
    rintro ⟨hc, -⟩
    rw [h] at hc
    cases hc
  · rename_i h
    split
    · rename_i hnt
      simp only [List.mem_flatMap, List.mem_map, Bool.not_eq_true] at h ⊢
      constructor
      · rintro ⟨γ, hγ, b, hb, rfl⟩
        exact ⟨h, hnt, γ, hγ, b, hb, rfl⟩
      · rintro ⟨-, -, γ, hγ, b, hb, rfl⟩
        exact ⟨γ, hγ, b, hb, rfl⟩
    · rename_i hnt
      simp only [List.not_mem_nil, false_iff]
      rintro ⟨-, hnt2, -⟩
      exact hnt hnt2

theorem genOfItem_sub_allGen {g : Grammar} {it x : LR1Item}
    (hx : x ∈ genOfItem g it) : x ∈ allGen g := by
  rcases mem_genOfItem.mp hx with ⟨-, -, γ, hγ, b, hb, rfl⟩
  unfold prods at hγ
  simp only [List.mem_map, List.mem_filter, decide_eq_true_eq] at hγ
  obtain ⟨r, ⟨hr, hr1⟩, hr2⟩ := hγ
  unfold allGen
  simp only [List.mem_flatMap, List.mem_map]
  exact ⟨r, hr, b, g.firstSeq_sub _ _ hb, by rw [hr1, hr2]⟩

theorem closureAux_fixpoint (g : Grammar) (U : Finset LR1Item)
    (hU : ∀ x ∈ allGen g, x ∈ U) :
    ∀ n s, (∀ x ∈ s, x ∈ U) → (U \ s.toFinset).card < n →
      closureStep g (closureAux g n s) = closureAux g n s := by
  intro n
  induction n with
  | zero => intro s _ h; omega
  | succ n ih =>
      intro s hs hcard
      simp only [closureAux]
      by_cases heq : closureStep g s = s
      · simp only [heq, if_pos rfl]
        exact heq
      · rw [if_neg heq]
        have hsub : ∀ x ∈ closureStep g s, x ∈ U := by
          intro x hx
          rcases mem_closureStep.mp hx with hx | ⟨it, -, hx⟩
          · exact hs x hx
          · exact hU x (genOfItem_sub_allGen hx)
        obtain ⟨news, hshape, hnews⟩ := closureStep_shape g s
        have hne : news ≠ [] := by
          intro h0
          exact heq (by rw [hshape, h0, List.append_nil])
        obtain ⟨y, hy⟩ := List.exists_mem_of_ne_nil news hne
        have hys : y ∉ s := hnews y hy
        have hyU : y ∈ U := hsub y (by rw [hshape]; exact List.mem_append_right _ hy)
        apply ih _ hsub
        have hss : (U \ (closureStep g s).toFinset) ⊂ (U \ s.toFinset) := by
          constructor
          · intro z hz
            rw [Finset.mem_sdiff] at hz ⊢
            refine ⟨hz.1, fun hzs => hz.2 ?_⟩
            rw [List.mem_toFinset] at hzs ⊢
            exact mem_closureStep.mpr (Or.inl hzs)
          · intro hsub2
            have : y ∈ U \ s.toFinset := by
              rw [Finset.mem_sdiff, List.mem_toFinset]
              exact ⟨hyU, hys⟩
            have := hsub2 this
            rw [Finset.mem_sdiff, List.mem_toFinset] at this
            exact this.2 (by rw [hshape]; exact List.mem_append_right _ hy)
        have := Finset.card_lt_card hss
        omega

theorem closureAux_sub (g : Grammar) :
    ∀ (n : Nat) (s : List LR1Item), ∀ x ∈ s, x ∈ closureAux g n s := by
  intro n
  induction n with
  | zero => intro s x hx; exact hx
  | succ n ih =>
      intro s x hx
      simp only [closureAux]
      split
      · exact hx
      · exact ih _ x (mem_closureStep.mpr (Or.inl hx))

theorem closure_sub (g : Grammar) (s : List LR1Item) : ∀ x ∈ s, x ∈ closure g s :=
  closureAux_sub g _ s

theorem closure_fixpoint (g : Grammar) (s : List LR1Item) :
    closureStep g (closure g s) = closure g s := by
  apply closureAux_fixpoint g ((s ++ allGen g).toFinset)
  · intro x hx
    rw [List.mem_toFinset]
    exact List.mem_append_right _ hx
  · intro x hx
    rw [List.mem_toFinset]
    exact List.mem_append_left _ hx
  · have : (s ++ allGen g).toFinset \ s.toFinset ⊆ (s ++ allGen g).toFinset :=
      Finset.sdiff_subset
    have := Finset.card_le_card this
    omega

theorem closure_closed (g : Grammar) (s : List LR1Item) :
    ∀ it ∈ closure g s, ∀ x ∈ genOfItem g it, x ∈ closure g s := by
  intro it hit x hx
  have hfix := closure_fixpoint g s
  rw [← hfix]
  exact mem_closureStep.mpr (Or.inr ⟨it, hit, hx⟩)

theorem closureAux_least (g : Grammar) {P : LR1Item → Prop}
    (hgen : ∀ it, P it → ∀ x ∈ genOfItem g it, P x) :
    ∀ (n : Nat) (s : List LR1Item), (∀ x ∈ s, P x) →
      ∀ x ∈ closureAux g n s, P x := by
  intro n
  induction n with
  | zero => intro s hP x hx; exact hP x hx
  | succ n ih =>
      intro s hP x hx
      simp only [closureAux] at hx
      split at hx
      · exact hP x hx
      · refine ih _ ?_ x hx
        intro y hy
        rcases mem_closureStep.mp hy with hy | ⟨it, hit, hy⟩
        · exact hP y hy
        · exact hgen it (hP it hit) y hy

theorem closure_least (g : Grammar) (s : List LR1Item) {P : LR1Item → Prop}
    (hP : ∀ x ∈ s, P x)
    (hgen : ∀ it, P it → ∀ x ∈ genOfItem g it, P x) :
    ∀ x ∈ closure g s, P x :=
  closureAux_least g hgen _ s hP

theorem closure_idem_eq (g : Grammar) (s : List LR1Item) :
    closure g (closure g s) = closure g s := by
  have hfix := closure_fixpoint g s
  show closureAux g (_ + 1) (closure g s) = closure g s
  simp [closureAux, hfix]

/-- C2: closure(I) is the least fixed point of the spec's rule: it
contains I; for every item (A → α · B β, a) in the result with the
non-terminal B after the dot, every production B → γ of the grammar and
every terminal b ∈ FIRST*(β followed by a), the item (B → · γ, b) is in
the result; and every item property holding on I and preserved by that
rule holds of the whole result, so the iteration stops exactly when
nothing more can be added. -/
theorem closure_least_fixed_point_c2 (g : Grammar) (I : List LR1Item) :
    (∀ x ∈ I, x ∈ closure g I) ∧
    (∀ it ∈ closure g I, completed it = false → isNT (dotSym it) = true →
      ∀ γ ∈ prods g (dotSym it),
        ∀ b ∈ g.firstSeq (it.rule.drop (it.dot + 1) ++ [it.lookahead]),
          (⟨dotSym it, 0, γ, b⟩ : LR1Item) ∈ closure g I) ∧
    (∀ P : LR1Item → Prop,
      (∀ x ∈ I, P x) →
      (∀ it, P it → completed it = false → isNT (dotSym it) = true →
        ∀ γ ∈ prods g (dotSym it),
          ∀ b ∈ g.firstSeq (it.rule.drop (it.dot + 1) ++ [it.lookahead]),
            P ⟨dotSym it, 0, γ, b⟩) →
      ∀ x ∈ closure g I, P x) := by
  refine ⟨closure_sub g I, ?_, ?_⟩
  · intro it hit hc hnt γ hγ b hb
    exact closure_closed g I it hit _ (mem_genOfItem.mpr ⟨hc, hnt, γ, hγ, b, hb, rfl⟩)
  · intro P hPI hPgen
    refine closure_least g I hPI ?_
    intro it hP x hx
    rcases mem_genOfItem.mp hx with ⟨hc, hnt, γ, hγ, b, hb, rfl⟩
    exact hPgen it hP hc hnt γ hγ b hb

/-- Witness for C2: in the grammar S0 → S, S → i, the closure of the
initial kernel must contain (S → · i, eof), generated from the kernel
item (S0 → · S eof, eof). -/
theorem closure_least_fixed_point_c2_witness :
    (⟨Sym.nt "S", 0, [Sym.t "i"], eofSym⟩ : LR1Item) ∈
      closure gAcc (initKernel gAcc) :=
  (closure_least_fixed_point_c2 gAcc (initKernel gAcc)).2.1
    ⟨Sym.nt "S0", 0, [Sym.nt "S", eofSym], eofSym⟩ (by decide) (by decide)
    (by decide) [Sym.t "i"] (by decide) eofSym (by decide)

/-- C7: closure is idempotent (closure(closure(I)) = closure(I)) and
superadditive (closure(I ∪ J) contains closure(I) ∪ closure(J); the
union of item sets is modelled by list concatenation). -/
theorem closure_idem_superadditive_c7 (g : Grammar) (I J : List LR1Item) :
    closure g (closure g I) = closure g I ∧
    (∀ x, x ∈ closure g I ∨ x ∈ closure g J → x ∈ closure g (I ++ J)) := by
  refine ⟨closure_idem_eq g I, ?_⟩
  have hI : ∀ x ∈ closure g I, x ∈ closure g (I ++ J) := by
    refine closure_least g I ?_ ?_
    · intro x hx
      exact closure_sub g _ x (List.mem_append_left _ hx)
    · intro it hP x hx
      exact closure_closed g _ it hP x hx
  have hJ : ∀ x ∈ closure g J, x ∈ closure g (I ++ J) := by
    refine closure_least g J ?_ ?_
    · intro x hx
      exact closure_sub g _ x (List.mem_append_right _ hx)
    · intro it hP x hx
      exact closure_closed g _ it hP x hx
  rintro x (hx | hx)
  · exact hI x hx
  · exact hJ x hx

/-- Witness for C7: instantiating the superadditivity component on the
grammar S0 → S, S → i puts a member of closure(I) into closure(I ++ J). -/
theorem closure_idem_superadditive_c7_witness :
    (⟨Sym.nt "S", 0, [Sym.t "i"], eofSym⟩ : LR1Item) ∈
      closure gAcc (initKernel gAcc ++ [⟨Sym.nt "S", 1, [Sym.t "i"], eofSym⟩]) :=
  (closure_idem_superadditive_c7 gAcc (initKernel gAcc)
      [⟨Sym.nt "S", 1, [Sym.t "i"], eofSym⟩]).2
    ⟨Sym.nt "S", 0, [Sym.t "i"], eofSym⟩ (Or.inl (by decide))

/-- C4: the serialized encoding is decodable: for every action keyed on
a symbol of the appropriate kind (Shift/Reduce/Accept on a terminal,
Goto on a non-terminal), decoding the encoded value with only the
key's kind recovers the original variant with its arguments (for
Reduce, the lhs name and the ε-free rhs length that were serialized). -/
theorem encode_decode_roundtrip_c4 (a : Action) (kt : Bool)
    (h : keyKindOK a kt) : decodeAction kt (encodeAction a) = some (serOf a) := by
  cases a with
  | shift j =>
      rw [show kt = true from h]
      simp only [encodeAction, decodeAction, serOf, if_true]
      have h1 : ¬((2 * (j : Int) + 1) = -1) := by omega
      have h2 : (2 * (j : Int) + 1) % 2 = 1 ∧ 0 ≤ 2 * (j : Int) + 1 := by omega
      rw [if_neg h1, if_pos h2]
      have h3 : (2 * (j : Int) + 1) / 2 = j := by omega
      rw [h3]
      simp
  | gotoA j =>
      rw [show kt = false from h]
      simp only [encodeAction, decodeAction, serOf, Bool.false_eq_true, if_false]
      have h2 : (2 * (j : Int)) % 2 = 0 ∧ 0 ≤ 2 * (j : Int) := by omega
      rw [if_pos h2]
      have h3 : (2 * (j : Int)) / 2 = j := by omega
      rw [h3]
      simp
  | reduce lhs rule =>
      rw [show kt = true from h]
      simp [encodeAction, decodeAction, serOf]
  | accept =>
      rw [show kt = true from h]
      simp [encodeAction, decodeAction, serOf]

/-- Witness for C4: decoding the encoding of Shift 3 on a terminal key
yields Shift 3 back. -/
theorem encode_decode_roundtrip_c4_witness :
    decodeAction true (encodeAction (Action.shift 3)) = some (serOf (Action.shift 3)) :=
  encode_decode_roundtrip_c4 (Action.shift 3) true rfl

/-- Helper: the ε-discounting length equals the length of the
ε-skipping iteration. -/
theorem expLen_eq_expIter_length (l : List Sym) :
    expLen l = (expIter l).length := by
  induction l with
  | nil => rfl
  | cons a l ih =>
      have hcl : l.count emptySym ≤ l.length := List.count_le_length _ _
      have ih2 : l.length - l.count emptySym = (expIter l).length := ih
      by_cases ha : a = emptySym
      · subst ha
        have h2 : (emptySym :: l).count emptySym = l.count emptySym + 1 := by simp
        have h3 : expIter (emptySym :: l) = expIter l := by simp [expIter]
        simp only [expLen, h2, h3, List.length_cons]
        omega
      · have h2 : (a :: l).count emptySym = l.count emptySym := by
          simp [List.count_cons, ha]
        have h3 : expIter (a :: l) = a :: expIter l := by simp [expIter, ha]
        simp only [expLen, h2, h3, List.length_cons]
        omega

/-- C9: the public views of an Expansion are ε-insensitive — its length
is the length of its ε-skipping iteration, its iteration holds exactly
the non-ε symbols, and its hash depends only on the iterated (ε-free)
sequence — so [ε] and [] agree on length (0), iteration (empty) and
hash, while raw list equality still tells them apart. -/
theorem expansion_views_c9 :
    (∀ l : List Sym, expLen l = (expIter l).length) ∧
    (∀ (l : List Sym) (x : Sym), x ∈ expIter l ↔ x ∈ l ∧ x ≠ emptySym) ∧
    (∀ l1 l2 : List Sym, expIter l1 = expIter l2 → expHash l1 = expHash l2) ∧
    expLen [emptySym] = 0 ∧ expIter [emptySym] = ([] : List Sym) ∧
    expHash [emptySym] = expHash ([] : List Sym) ∧
    ([emptySym] : List Sym) ≠ ([] : List Sym) := by
  refine ⟨expLen_eq_expIter_length, ?_, ?_, by decide, by decide, by rfl, by decide⟩
  · intro l x
    simp [expIter]
  · intro l1 l2 h
    unfold expHash
    rw [h]

/-- C10: handle_comment cannot raise: the tokenizer scans code + "\n",
so whenever the character at the current offset is '#', the remaining
code contains a newline; str.index therefore succeeds and the explicit
error branch testing for -1 is unreachable — handle_comment returns the
comment normally on every input string. -/
theorem handle_comment_safe_c10 (input : List Char) (offset : Nat)
    (hlt : offset < (tokCode input).length)
    (hhash : (tokCode input).getD offset ' ' = '#') :
    ∃ c, handleComment ((tokCode input).drop offset) = Except.ok c := by
  have hle : offset ≤ input.length := by
    simp only [tokCode, List.length_append, List.length_singleton] at hlt
    omega
  have hmem : '\n' ∈ (tokCode input).drop offset := by
    rw [tokCode, List.drop_append_eq_append_drop]
    have h0 : offset - input.length = 0 := by omega
    rw [h0]
    exact List.mem_append_right _ (by simp)
  cases hf : ((tokCode input).drop offset).findIdx? (fun c => c = '\n') with
  | none =>
      exfalso
      rw [List.findIdx?_eq_none_iff] at hf
      have := hf '\n' hmem
      simp at this
  | some p =>
      have hp : ¬((p : Int) = -1) := by omega
      refine ⟨((tokCode input).drop offset).take p, ?_⟩
      simp only [handleComment, hf, if_neg hp]

/-- Witness for C10: on the input "a#b" with the offset at the '#', the
comment handler returns normally. -/
theorem handle_comment_safe_c10_witness :
    ∃ c, handleComment ((tokCode ['a', '#', 'b']).drop 1) = Except.ok c :=
  handle_comment_safe_c10 ['a', '#', 'b'] 1 (by decide) (by decide)

/-! Characterization of the writes LR1ParsingTable.construct performs. -/

theorem stEq_iff {a b : List LR1Item} :
    stEq a b = true ↔ ∀ x, x ∈ a ↔ x ∈ b := by
  unfold stEq
  rw [Bool.and_eq_true, decide_eq_true_eq, decide_eq_true_eq]
  constructor
  · rintro ⟨h1, h2⟩ x
    exact ⟨fun hx => h1 hx, fun hx => h2 hx⟩
  · intro h
    exact ⟨fun _ hx => (h _).mp hx, fun _ hx => (h _).mpr hx⟩

theorem mem_constructWrites_iff {g : Grammar} {sts : List (List LR1Item)}
    {e : (Nat × String) × Action} :
    e ∈ constructWrites g sts ↔
      ∃ i I, sts[i]? = some I ∧
        ((∃ it ∈ I, completed it = true ∧ it.name = g.start ∧
            it.lookahead = eofSym ∧ e = ((i, symName eofSym), Action.accept))
         ∨ (∃ it ∈ I, completed it = true ∧ it.name ≠ g.start ∧
            e = ((i, symName it.lookahead), Action.reduce it.name it.rule))
         ∨ (∃ it ∈ I, completed it = false ∧
            ∃ j J, sts[j]? = some J ∧ stEq (goto g I (dotSym it)) J = true ∧
              e = ((i, symName (dotSym it)), Action.shift j))
         ∨ (∃ nt2 ∈ g.nonterminalsL,
            ∃ j J, sts[j]? = some J ∧ stEq (goto g I nt2) J = true ∧
              e = ((i, symName nt2), Action.gotoA j))) := by
  constructor
  · intro h
    simp only [constructWrites, List.mem_flatMap, List.mem_append] at h
    obtain ⟨p, hp, h⟩ := h
    obtain ⟨i, I⟩ := p
    rw [List.mk_mem_enum_iff_getElem?] at hp
    refine ⟨i, I, hp, ?_⟩
    rcases h with h | h
    · simp only [List.mem_flatMap] at h
      obtain ⟨it, hit, h⟩ := h
      by_cases hc : completed it = true
      · rw [if_pos hc] at h
        by_cases hacc : it.name = g.start ∧ it.lookahead = eofSym
        · rw [if_pos hacc] at h
          simp only [List.mem_singleton] at h
          exact Or.inl ⟨it, hit, hc, hacc.1, hacc.2, h⟩
        · rw [if_neg hacc] at h
          by_cases hred : it.name ≠ g.start
          · rw [if_pos hred] at h
            simp only [List.mem_singleton] at h
            exact Or.inr (Or.inl ⟨it, hit, hc, hred, h⟩)
          · rw [if_neg hred] at h
            simp at h
      · rw [if_neg hc] at h
        simp only [List.mem_flatMap] at h
        obtain ⟨q, hq, h⟩ := h
        obtain ⟨j, J⟩ := q
        rw [List.mk_mem_enum_iff_getElem?] at hq
        by_cases hst : stEq (goto g I (dotSym it)) J = true
        · rw [if_pos hst] at h
          simp only [List.mem_singleton] at h
          exact Or.inr (Or.inr (Or.inl
            ⟨it, hit, Bool.not_eq_true _ ▸ hc, j, J, hq, hst, h⟩))
        · rw [if_neg hst] at h
          simp at h
    · simp only [List.mem_flatMap] at h
      obtain ⟨nt2, hnt2, h⟩ := h
      obtain ⟨q, hq, h⟩ := h
      obtain ⟨j, J⟩ := q
      rw [List.mk_mem_enum_iff_getElem?] at hq
      by_cases hst : stEq (goto g I nt2) J = true
      · rw [if_pos hst] at h
        simp only [List.mem_singleton] at h
        exact Or.inr (Or.inr (Or.inr ⟨nt2, hnt2, j, J, hq, hst, h⟩))
      · rw [if_neg hst] at h
        simp at h
  · rintro ⟨i, I, hp, h⟩
    simp only [constructWrites, List.mem_flatMap, List.mem_append]
    refine ⟨(i, I), List.mk_mem_enum_iff_getElem?.mpr hp, ?_⟩
    rcases h with ⟨it, hit, hc, hn, hl, rfl⟩ | ⟨it, hit, hc, hn, rfl⟩ |
      ⟨it, hit, hc, j, J, hj, hst, rfl⟩ | ⟨nt2, hnt2, j, J, hj, hst, rfl⟩
    · refine Or.inl ⟨it, hit, ?_⟩
      rw [if_pos hc, if_pos ⟨hn, hl⟩]
      simp
    · refine Or.inl ⟨it, hit, ?_⟩
      rw [if_pos hc, if_neg (fun hand => hn hand.1), if_pos hn]
      simp
    · refine Or.inl ⟨it, hit, ?_⟩
      rw [if_neg (by rw [hc]; exact Bool.false_ne_true)]
      refine List.mem_flatMap.mpr ⟨(j, J), List.mk_mem_enum_iff_getElem?.mpr hj, ?_⟩
      rw [if_pos hst]
      simp
    · refine Or.inr ⟨nt2, hnt2, (j, J), List.mk_mem_enum_iff_getElem?.mpr hj, ?_⟩
      rw [if_pos hst]
      simp

/-! Lemmas about the write-once view of the table. -/

theorem tableGet_eq_of_all (ws : List ((Nat × String) × Action))
    (k : Nat × String) (a : Action)
    (hex : ∃ e ∈ ws, e.1 = k) (hall : ∀ e ∈ ws, e.1 = k → e.2 = a) :
    tableGet ws k = some a := by
  obtain ⟨e, he, hek⟩ := hex
  have hmem : e ∈ ws.filter (fun e => e.1 = k) :=
    List.mem_filter.mpr ⟨he, by simp [hek]⟩
  have hne : ws.filter (fun e => e.1 = k) ≠ [] := List.ne_nil_of_mem hmem
  unfold tableGet
  rw [List.getLast?_eq_getLast_of_ne_nil hne]
  have hlmem := List.getLast_mem hne
  rcases List.mem_filter.mp hlmem with ⟨hws, hk⟩
  simp only [Option.map_some']
  rw [hall _ hws (by simpa using hk)]

theorem tableGet_some_inv (ws : List ((Nat × String) × Action))
    (k : Nat × String) (a : Action) (h : tableGet ws k = some a) :
    ∃ e ∈ ws, e.1 = k ∧ e.2 = a := by
  unfold tableGet at h
  cases hg : (ws.filter (fun e => e.1 = k)).getLast? with
  | none => rw [hg] at h; simp at h
  | some e =>
      rw [hg] at h
      simp only [Option.map_some', Option.some.injEq] at h
      obtain ⟨hne2, heq2⟩ := List.mem_getLast?_eq_getLast (l := ws.filter _) hg
      have hmem : e ∈ ws.filter (fun e => e.1 = k) := by
        rw [heq2]
        exact List.getLast_mem hne2
      rcases List.mem_filter.mp hmem with ⟨hws, hk⟩
      exact ⟨e, hws, by simpa using hk, h⟩

/-- C6: every Reduce entry the construction writes comes from a
completed item (A → α ·, a) of the keyed state, and the rhs length the
serialization records for it is the number of non-ε symbols of α; in
particular the ε-rule [ε] has recorded length 0, so ε never counts
toward the stack entries popped on reduce. -/
theorem reduce_length_c6 (g : Grammar) (sts : List (List LR1Item))
    (i : Nat) (s : String) (A : Sym) (r : List Sym)
    (h : ((i, s), Action.reduce A r) ∈ constructWrites g sts) :
    (∃ I, sts[i]? = some I ∧ ∃ it ∈ I, completed it = true ∧
      it.name = A ∧ it.rule = r ∧ s = symName it.lookahead) ∧
    encodeAction (Action.reduce A r) =
      EncVal.pair (symName A) (r.countP (fun x => x ≠ emptySym)) ∧
    expLen [emptySym] = 0 := by
  refine ⟨?_, ?_, by decide⟩
  · rcases mem_constructWrites_iff.mp h with ⟨i2, I, hI, hcase⟩
    rcases hcase with ⟨it, hit, hc, hn, hl, heq⟩ | ⟨it, hit, hc, hn, heq⟩ |
      ⟨it, hit, hc, j, J, hj, hst, heq⟩ | ⟨nt2, hnt2, j, J, hj, hst, heq⟩
    · simp at heq
    · simp only [Prod.mk.injEq, Action.reduce.injEq] at heq
      obtain ⟨⟨hi, hs⟩, hA, hr⟩ := heq
      subst hi
      exact ⟨I, hI, it, hit, hc, hA.symm, hr.symm, hs⟩
    · simp at heq
    · simp at heq
  · simp only [encodeAction, EncVal.pair.injEq, true_and]
    rw [expLen_eq_expIter_length, expIter]
    exact (List.countP_eq_length_filter _ _).symm

/-- Witness for C6: the Reduce written for state 2 of the grammar
S0 → S, S → i comes from the completed item (S → i ·, eof) and is
serialized with length 1. -/
theorem reduce_length_c6_witness :
    (∃ I, (getItems gAcc oAcc)[2]? = some I ∧ ∃ it ∈ I, completed it = true ∧
      it.name = Sym.nt "S" ∧ it.rule = [Sym.t "i"] ∧ "eof" = symName it.lookahead) ∧
    encodeAction (Action.reduce (Sym.nt "S") [Sym.t "i"]) =
      EncVal.pair (symName (Sym.nt "S"))
        (([Sym.t "i"] : List Sym).countP (fun x => x ≠ emptySym)) ∧
    expLen [emptySym] = 0 :=
  reduce_length_c6 gAcc (getItems gAcc oAcc) 2 "eof" (Sym.nt "S") [Sym.t "i"]
    (by decide)

/-- C1 (divergence witness): on the ambiguous grammar E0 → E,
E → E + E | i (spec scenario 4), the construct loop writes both
Reduce(E, E + E) and Shift to the same cell (state 5, "+") — a
shift/reduce conflict — raises nothing, and leaves the Shift in the
final table, silently discarding the Reduce; yet compute_reduce_actions
in the same class, run over the same states starting from the Shift
entries, raises the conflict error exactly there.  construct is a total
function in this model because the source construct contains no raise
statement. -/
theorem construct_conflict_overwrite_c1 :
    ((5, "+"), Action.reduce (Sym.nt "E") [Sym.nt "E", Sym.t "+", Sym.nt "E"])
        ∈ constructWrites gAmb (getItems gAmb oAmb) ∧
    ((5, "+"), Action.shift 3) ∈ constructWrites gAmb (getItems gAmb oAmb) ∧
    Action.reduce (Sym.nt "E") [Sym.nt "E", Sym.t "+", Sym.nt "E"] ≠
      Action.shift 3 ∧
    tableGet (constructWrites gAmb (getItems gAmb oAmb)) (5, "+")
      = some (Action.shift 3) ∧
    computeReduceActions gAmb (getItems gAmb oAmb)
      ((constructWrites gAmb (getItems gAmb oAmb)).filter
        (fun e => match e.2 with | Action.shift _ => true | _ => false))
      = Except.error () := by
  decide

/-- C5 (divergence witness): two enumerations of the same symbol set of
the grammar S0 → S, S → a | b — two runs of the Python set iteration —
make get_items discover the same states but in different orders, so the
state ids and hence the encoded tables differ between runs. -/
theorem getItems_order_dependent_c5 :
    oDet1.Perm oDet2 ∧ oDet1.Nodup ∧ oDet2.Nodup ∧
    (getItems gDet oDet1).Perm (getItems gDet oDet2) ∧
    getItems gDet oDet1 ≠ getItems gDet oDet2 := by
  decide

/-- C3 counterexample: in the grammar S0 → S, S → i, the state reached
by Goto(start_state, S) is state 1; its ACTION on EOF is Shift 3, not
Accept.  The Accept entry sits in state 3 = Goto(state 1, EOF), the
state holding the completed augmented item (S0 → S eof ·, eof). -/
theorem accept_state_c3_counterexample :
    stEq (goto gAcc (closure gAcc (initKernel gAcc)) (Sym.nt "S"))
      [⟨Sym.nt "S0", 1, [Sym.nt "S", eofSym], eofSym⟩] = true ∧
    (getItems gAcc oAcc)[1]? =
      some [⟨Sym.nt "S0", 1, [Sym.nt "S", eofSym], eofSym⟩] ∧
    tableGet (constructWrites gAcc (getItems gAcc oAcc)) (1, "eof")
      = some (Action.shift 3) ∧
    tableGet (constructWrites gAcc (getItems gAcc oAcc)) (1, "eof")
      ≠ some Action.accept ∧
    (getItems gAcc oAcc)[3]? =
      some [⟨Sym.nt "S0", 2, [Sym.nt "S", eofSym], eofSym⟩] ∧
    tableGet (constructWrites gAcc (getItems gAcc oAcc)) (3, "eof")
      = some Action.accept ∧
    stEq (goto gAcc [⟨Sym.nt "S0", 1, [Sym.nt "S", eofSym], eofSym⟩] eofSym)
      [⟨Sym.nt "S0", 2, [Sym.nt "S", eofSym], eofSym⟩] = true := by
  decide

/-- Witness for C9: the hash-congruence component applied to the lists
[a, ε] and [a], whose ε-skipping iterations coincide. -/
theorem expansion_views_c9_witness :
    expHash [Sym.t "a", emptySym] = expHash [Sym.t "a"] :=
  expansion_views_c9.2.2.1 [Sym.t "a", emptySym] [Sym.t "a"] (by decide)

/-! Membership in the advanced item set built by goto. -/

theorem mem_gotoAdvSet {s : List LR1Item} {X : Sym} {x : LR1Item} :
    x ∈ (yieldUnfinished s).foldl
        (fun acc it => if dotSym it = X then stappend acc (advance it) else acc)
        [] ↔
      ∃ it ∈ s, completed it = false ∧ dotSym it = X ∧ x = advance it := by
  have haux : ∀ (l acc : List LR1Item),
      x ∈ l.foldl
        (fun acc it => if dotSym it = X then stappend acc (advance it) else acc)
        acc ↔
      x ∈ acc ∨ ∃ it ∈ l, dotSym it = X ∧ x = advance it := by
    intro l
    induction l with
    | nil => simp
    | cons a l ih =>
        intro acc
        rw [List.foldl_cons]
        by_cases ha : dotSym a = X
        · rw [if_pos ha, ih, mem_stappend]
          simp only [List.mem_cons]
          constructor
          · rintro ((h | h) | ⟨it, hit, hX, hadv⟩)
            · exact Or.inl h
            · exact Or.inr ⟨a, Or.inl rfl, ha, h⟩
            · exact Or.inr ⟨it, Or.inr hit, hX, hadv⟩
          · rintro (h | ⟨it, (rfl | hit), hX, hadv⟩)
            · exact Or.inl (Or.inl h)
            · exact Or.inl (Or.inr hadv)
            · exact Or.inr ⟨it, hit, hX, hadv⟩
        · rw [if_neg ha, ih]
          simp only [List.mem_cons]
          constructor
          · rintro (h | ⟨it, hit, hX, hadv⟩)
            · exact Or.inl h
            · exact Or.inr ⟨it, Or.inr hit, hX, hadv⟩
          · rintro (h | ⟨it, (rfl | hit), hX, hadv⟩)
            · exact Or.inl h
            · exact absurd hX ha
            · exact Or.inr ⟨it, hit, hX, hadv⟩
  rw [haux]
  simp only [List.not_mem_nil, false_or]
  constructor
  · rintro ⟨it, hit, hX, hadv⟩
    rcases List.mem_filter.mp hit with ⟨hits, hunf⟩
    exact ⟨it, hits, by simpa using hunf, hX, hadv⟩
  · rintro ⟨it, hits, hunf, hX, hadv⟩
    exact ⟨it, List.mem_filter.mpr ⟨hits, by simpa using hunf⟩, hX, hadv⟩

/-- When every advanceable item of s advances to the same completed
item y and at least one such item exists, goto(s, X) is exactly the
singleton state of y. -/
theorem goto_membersEq {g : Grammar} {s : List LR1Item} {X : Sym}
    {y : LR1Item}
    (hall : ∀ it ∈ s, completed it = false → dotSym it = X → advance it = y)
    (hex : ∃ it ∈ s, completed it = false ∧ dotSym it = X)
    (hcomp : completed y = true) :
    ∀ x, x ∈ goto g s X ↔ x = y := by
  intro x
  constructor
  · intro hx
    unfold goto at hx
    refine @closure_least g _ (fun z => z = y) ?_ ?_ x hx
    · intro z hz
      rcases mem_gotoAdvSet.mp hz with ⟨it, hits, hunf, hX, rfl⟩
      exact hall it hits hunf hX
    · intro it hP z hz
      subst hP
      rcases mem_genOfItem.mp hz with ⟨hc, -⟩
      rw [hcomp] at hc
      cases hc
  · rintro rfl
    apply closure_sub
    obtain ⟨it, hits, hunf, hX⟩ := hex
    exact mem_gotoAdvSet.mpr ⟨it, hits, hunf, hX, (hall it hits hunf hX).symm⟩

/-- C3 as amended: the Accept entry sits at the state holding the
complete augmented item (S' → S EOF ·, EOF) — which is
Goto(Goto(start_state, S), EOF), one EOF transition beyond
Goto(start_state, S) — it is that state's only action on EOF and the
table's only Accept; Goto(start_state, S) itself, a different state,
holds Shift to the accept state on EOF.  The hypotheses express the
spec's invariants on the discovered states sts: items naming the
augmented start S' lie on the kernel chain (S' → S EOF with EOF
lookahead, spec: S' appears only as the lhs of the augmented rule), the
state containing the complete augmented item holds nothing else, no
non-terminal is named "eof", distinct state ids hold distinct item
sets, state k1 is Goto(start_state, S), state kA contains the complete
augmented item, and Goto(start_state, S) is conflict-free on EOF (no
completed non-start item and no other EOF transition there). -/
theorem accept_placement_c3 (g : Grammar) (sts : List (List LR1Item))
    (S : Sym) (k1 kA : Nat) (J1 IA : List LR1Item)
    (hα : (prods g g.start).headD [] = [S])
    (hSne : S ≠ emptySym)
    (hchar : ∀ I ∈ sts, ∀ it ∈ I, it.name = g.start →
      it.rule = [S, eofSym] ∧ it.lookahead = eofSym ∧ it.dot ≤ 2)
    (haccU : ∀ I ∈ sts, (⟨g.start, 2, [S, eofSym], eofSym⟩ : LR1Item) ∈ I →
      ∀ x ∈ I, x = (⟨g.start, 2, [S, eofSym], eofSym⟩ : LR1Item))
    (hdist : ∀ i < sts.length, ∀ j < sts.length,
      stEq (sts.getD i []) (sts.getD j []) = true → i = j)
    (hk1 : sts[k1]? = some J1)
    (hJ1 : stEq J1 (goto g (closure g (initKernel g)) S) = true)
    (hkA : sts[kA]? = some IA)
    (hIA : (⟨g.start, 2, [S, eofSym], eofSym⟩ : LR1Item) ∈ IA)
    (hJ1red : ∀ it ∈ J1, completed it = true → symName it.lookahead = "eof" →
      it.name = g.start)
    (hJ1dot : ∀ it ∈ J1, completed it = false → symName (dotSym it) = "eof" →
      it = (⟨g.start, 1, [S, eofSym], eofSym⟩ : LR1Item))
    (hnt : ∀ x ∈ g.nonterminalsL, symName x ≠ "eof") :
    tableGet (constructWrites g sts) (kA, "eof") = some Action.accept ∧
    (∀ i s2, tableGet (constructWrites g sts) (i, s2) = some Action.accept →
      i = kA ∧ s2 = "eof") ∧
    (⟨g.start, 1, [S, eofSym], eofSym⟩ : LR1Item) ∈ J1 ∧
    (∀ x, x ∈ goto g J1 eofSym ↔
      x = (⟨g.start, 2, [S, eofSym], eofSym⟩ : LR1Item)) ∧
    tableGet (constructWrites g sts) (k1, "eof") = some (Action.shift kA) ∧
    k1 ≠ kA := by
  have heofne : eofSym ≠ emptySym := by decide
  have hcount : ([S, eofSym] : List Sym).count emptySym = 0 := by
    rw [List.count_eq_zero]
    intro hmem
    rcases List.mem_cons.mp hmem with h | h
    · exact hSne h.symm
    · rw [List.mem_singleton] at h
      exact heofne h.symm
  have hexp2 : expLen [S, eofSym] = 2 := by
    unfold expLen
    rw [hcount]
    rfl
  have hcompAcc : completed (⟨g.start, 2, [S, eofSym], eofSym⟩ : LR1Item) = true := by
    unfold completed
    rw [hexp2]
    rfl
  have hcompD1 : completed (⟨g.start, 1, [S, eofSym], eofSym⟩ : LR1Item) = false := by
    unfold completed
    rw [hexp2]
    rfl
  have hcompD0 : completed (⟨g.start, 0, [S, eofSym], eofSym⟩ : LR1Item) = false := by
    unfold completed
    rw [hexp2]
    rfl
  have hd1 : dotSym (⟨g.start, 1, [S, eofSym], eofSym⟩ : LR1Item) = eofSym := rfl
  have hne12 : (⟨g.start, 1, [S, eofSym], eofSym⟩ : LR1Item) ≠
      (⟨g.start, 2, [S, eofSym], eofSym⟩ : LR1Item) := by
    intro h
    cases h
  have hJ1mem : J1 ∈ sts := List.getElem?_mem hk1
  have hIAmem : IA ∈ sts := List.getElem?_mem hkA
  have hdist2 : ∀ (i j : Nat) (I2 J2 : List LR1Item),
      sts[i]? = some I2 → sts[j]? = some J2 →
      (∀ x, x ∈ I2 ↔ x ∈ J2) → i = j := by
    intro i j I2 J2 hI2 hJ2 hiff
    have hilt : i < sts.length := by
      rw [List.getElem?_eq_some] at hI2
      exact hI2.1
    have hjlt : j < sts.length := by
      rw [List.getElem?_eq_some] at hJ2
      exact hJ2.1
    have hgi : sts.getD i [] = I2 := by
      rw [List.getD_eq_getElem?_getD, hI2]
      rfl
    have hgj : sts.getD j [] = J2 := by
      rw [List.getD_eq_getElem?_getD, hJ2]
      rfl
    apply hdist i hilt j hjlt
    rw [hgi, hgj]
    exact stEq_iff.mpr hiff
  have hJ1x : ∀ x, x ∈ J1 ↔ x ∈ goto g (closure g (initKernel g)) S :=
    stEq_iff.mp hJ1
  -- the kernel-chain item with dot 1 is in Goto(start_state, S), hence in J1
  have hD1J1 : (⟨g.start, 1, [S, eofSym], eofSym⟩ : LR1Item) ∈ J1 := by
    rw [hJ1x]
    apply closure_sub
    refine mem_gotoAdvSet.mpr
      ⟨⟨g.start, 0, [S, eofSym], eofSym⟩, ?_, hcompD0, rfl, rfl⟩
    apply closure_sub
    unfold initKernel
    rw [hα]
    exact List.mem_singleton.mpr rfl
  -- the complete augmented item is not in J1
  have hAccNotJ1 : (⟨g.start, 2, [S, eofSym], eofSym⟩ : LR1Item) ∉ J1 := by
    intro hmem
    exact hne12 (haccU J1 hJ1mem hmem _ hD1J1)
  -- goto(J1, EOF) is exactly the accept singleton
  have hgotoJ1 : ∀ x, x ∈ goto g J1 eofSym ↔
      x = (⟨g.start, 2, [S, eofSym], eofSym⟩ : LR1Item) := by
    apply goto_membersEq
    · intro it hit hunf hX
      have := hJ1dot it hit hunf (by rw [hX]; rfl)
      subst this
      rfl
    · exact ⟨⟨g.start, 1, [S, eofSym], eofSym⟩, hD1J1, hcompD1, hd1⟩
    · exact hcompAcc
  -- members of IA are exactly the accept item
  have hIAeq : ∀ x, x ∈ IA ↔ x = (⟨g.start, 2, [S, eofSym], eofSym⟩ : LR1Item) := by
    intro x
    constructor
    · intro hx
      exact haccU IA hIAmem hIA x hx
    · rintro rfl
      exact hIA
  -- a completed item naming the start symbol is the accept item
  have hcompStart : ∀ I ∈ sts, ∀ it ∈ I, completed it = true →
      it.name = g.start →
      it = (⟨g.start, 2, [S, eofSym], eofSym⟩ : LR1Item) := by
    intro I hI it hit hc hn
    obtain ⟨hrule, hla, hdle⟩ := hchar I hI it hit hn
    obtain ⟨n, d, r, la⟩ := it
    simp only at hrule hla hdle hn
    subst hrule
    subst hla
    subst hn
    unfold completed at hc
    rw [hexp2] at hc
    simp only [decide_eq_true_eq] at hc
    have : d = 2 := by omega
    subst this
    rfl
  -- conclusion 1: Accept at (kA, "eof")
  have hconc1 : tableGet (constructWrites g sts) (kA, "eof") = some Action.accept := by
    apply tableGet_eq_of_all
    · refine ⟨((kA, symName eofSym), Action.accept), ?_, rfl⟩
      exact mem_constructWrites_iff.mpr
        ⟨kA, IA, hkA, Or.inl ⟨_, hIA, hcompAcc, rfl, rfl, rfl⟩⟩
    · intro e he hek
      rcases mem_constructWrites_iff.mp he with ⟨i, I, hI, hcase⟩
      rcases hcase with ⟨it, hit, hc, hn, hl, rfl⟩ | ⟨it, hit, hc, hn, rfl⟩ |
        ⟨it, hit, hc, j, J, hj, hst, rfl⟩ | ⟨nt2, hnt2, j, J, hj, hst, rfl⟩
      · rfl
      · exfalso
        simp only [Prod.mk.injEq] at hek
        obtain ⟨hik, -⟩ := hek
        subst hik
        rw [hkA] at hI
        injection hI with hI
        subst hI
        have := hIAeq it |>.mp hit
        subst this
        exact hn rfl
      · exfalso
        simp only [Prod.mk.injEq] at hek
        obtain ⟨hik, -⟩ := hek
        subst hik
        rw [hkA] at hI
        injection hI with hI
        subst hI
        have := hIAeq it |>.mp hit
        subst this
        rw [hcompAcc] at hc
        cases hc
      · exfalso
        simp only [Prod.mk.injEq] at hek
        exact hnt nt2 hnt2 hek.2
  -- conclusion 2: Accept only at (kA, "eof")
  have hconc2 : ∀ i s2,
      tableGet (constructWrites g sts) (i, s2) = some Action.accept →
      i = kA ∧ s2 = "eof" := by
    intro i s2 h
    obtain ⟨e, he, hek, hea⟩ := tableGet_some_inv _ _ _ h
    rcases mem_constructWrites_iff.mp he with ⟨i2, I, hI, hcase⟩
    rcases hcase with ⟨it, hit, hc, hn, hl, rfl⟩ | ⟨it, hit, hc, hn, rfl⟩ |
      ⟨it, hit, hc, j, J, hj, hst, rfl⟩ | ⟨nt2, hnt2, j, J, hj, hst, rfl⟩
    · simp only [Prod.mk.injEq] at hek
      obtain ⟨hik, hsk⟩ := hek
      have hItmem : I ∈ sts := List.getElem?_mem hI
      have heq := hcompStart I hItmem it hit hc hn
      subst heq
      have hIeq : ∀ x, x ∈ I ↔ x = (⟨g.start, 2, [S, eofSym], eofSym⟩ : LR1Item) := by
        intro x
        constructor
        · intro hx
          exact haccU I hItmem hit x hx
        · rintro rfl
          exact hit
      have hiA : i2 = kA := by
        apply hdist2 i2 kA I IA hI hkA
        intro x
        rw [hIeq x, hIAeq x]
      subst hik
      exact ⟨hiA, hsk.symm⟩
    · exfalso
      simp at hea
    · exfalso
      simp at hea
    · exfalso
      simp at hea
  -- conclusion 5: Shift to the accept state at (k1, "eof")
  have hstIA : stEq (goto g J1 eofSym) IA = true := by
    rw [stEq_iff]
    intro x
    rw [hgotoJ1 x, hIAeq x]
  have hconc5 : tableGet (constructWrites g sts) (k1, "eof")
      = some (Action.shift kA) := by
    apply tableGet_eq_of_all
    · refine ⟨((k1, symName (dotSym (⟨g.start, 1, [S, eofSym], eofSym⟩ : LR1Item))),
        Action.shift kA), ?_, rfl⟩
      exact mem_constructWrites_iff.mpr
        ⟨k1, J1, hk1, Or.inr (Or.inr (Or.inl
          ⟨_, hD1J1, hcompD1, kA, IA, hkA, by rw [hd1]; exact hstIA, rfl⟩))⟩
    · intro e he hek
      rcases mem_constructWrites_iff.mp he with ⟨i, I, hI, hcase⟩
      rcases hcase with ⟨it, hit, hc, hn, hl, rfl⟩ | ⟨it, hit, hc, hn, rfl⟩ |
        ⟨it, hit, hc, j, J, hj, hst, rfl⟩ | ⟨nt2, hnt2, j, J, hj, hst, rfl⟩
      · exfalso
        simp only [Prod.mk.injEq] at hek
        obtain ⟨hik, -⟩ := hek
        subst hik
        rw [hk1] at hI
        injection hI with hI
        subst hI
        have heq := hcompStart J1 hJ1mem it hit hc hn
        subst heq
        exact hAccNotJ1 hit
      · exfalso
        simp only [Prod.mk.injEq] at hek
        obtain ⟨hik, hsk⟩ := hek
        subst hik
        rw [hk1] at hI
        injection hI with hI
        subst hI
        have hnstart := hJ1red it hit hc hsk
        exact hn hnstart
      · simp only [Prod.mk.injEq] at hek
        obtain ⟨hik, hsk⟩ := hek
        subst hik
        rw [hk1] at hI
        injection hI with hI
        subst hI
        have hitD1 := hJ1dot it hit hc hsk
        subst hitD1
        rw [hd1] at hst
        have hJeq : ∀ x, x ∈ J ↔ x = (⟨g.start, 2, [S, eofSym], eofSym⟩ : LR1Item) := by
          intro x
          rw [← (stEq_iff.mp hst x), hgotoJ1 x]
        have : j = kA := by
          apply hdist2 j kA J IA hj hkA
          intro x
          rw [hJeq x, hIAeq x]
        subst this
        rfl
      · exfalso
        simp only [Prod.mk.injEq] at hek
        exact hnt nt2 hnt2 hek.2
  -- conclusion 6: the two states are distinct
  have hconc6 : k1 ≠ kA := by
    intro h
    subst h
    rw [hk1] at hkA
    injection hkA with hkA
    subst hkA
    exact hAccNotJ1 hIA
  exact ⟨hconc1, hconc2, hD1J1, hgotoJ1, hconc5, hconc6⟩

/-- Witness for C3: the amended placement holds on the grammar
S0 → S, S → i with the discovered states, where state 1 is
Goto(start_state, S) and state 3 is the accept state. -/
theorem accept_placement_c3_witness :
    tableGet (constructWrites gAcc (getItems gAcc oAcc)) (3, "eof")
        = some Action.accept ∧
    (∀ i s2, tableGet (constructWrites gAcc (getItems gAcc oAcc)) (i, s2)
        = some Action.accept → i = 3 ∧ s2 = "eof") ∧
    (⟨Sym.nt "S0", 1, [Sym.nt "S", eofSym], eofSym⟩ : LR1Item) ∈
      [⟨Sym.nt "S0", 1, [Sym.nt "S", eofSym], eofSym⟩] ∧
    (∀ x, x ∈ goto gAcc [⟨Sym.nt "S0", 1, [Sym.nt "S", eofSym], eofSym⟩] eofSym ↔
      x = (⟨Sym.nt "S0", 2, [Sym.nt "S", eofSym], eofSym⟩ : LR1Item)) ∧
    tableGet (constructWrites gAcc (getItems gAcc oAcc)) (1, "eof")
        = some (Action.shift 3) ∧
    (1 : Nat) ≠ 3 :=
  accept_placement_c3 gAcc (getItems gAcc oAcc) (Sym.nt "S") 1 3
    [⟨Sym.nt "S0", 1, [Sym.nt "S", eofSym], eofSym⟩]
    [⟨Sym.nt "S0", 2, [Sym.nt "S", eofSym], eofSym⟩]
    (by decide) (by decide) (by decide) (by decide) (by decide) (by decide)
    (by decide) (by decide) (by decide) (by decide) (by decide) (by decide)

/-! Lemmas for the tokenizer loop. -/

/-- A newline is left in every suffix of code + "\n" that starts before
the end. -/
theorem newline_mem_drop (input : List Char) (j : Nat)
    (hj : j < (tokCode input).length) : '\n' ∈ (tokCode input).drop j := by
  have hle : j ≤ input.length := by
    simp only [tokCode, List.length_append, List.length_singleton] at hj
    omega
  rw [tokCode, List.drop_append_eq_append_drop]
  have h0 : j - input.length = 0 := by omega
  rw [h0]
  exact List.mem_append_right _ (by simp)

/-- handle_comment succeeds whenever the remaining code contains a
newline. -/
theorem handleComment_ok {rem : List Char} (hmem : '\n' ∈ rem) :
    ∃ c, handleComment rem = Except.ok c := by
  cases hf : rem.findIdx? (fun c => c = '\n') with
  | none =>
      exfalso
      rw [List.findIdx?_eq_none_iff] at hf
      have := hf '\n' hmem
      simp at this
  | some p =>
      have hp : ¬((p : Int) = -1) := by omega
      refine ⟨rem.take p, ?_⟩
      simp only [handleComment, hf, if_neg hp]

/-- One step of the tokenizer loop on a non-empty remainder that still
contains a newline: it returns a token, consumes at least one character
and never yields the "eof" kind, provided the named-token keys are
non-empty, no named token maps to "eof", and the fallback matcher
returns a non-empty lexeme of a kind other than "eof". -/
theorem tokStep_ok (cfg : TokCfg)
    (hk : ∀ p ∈ cfg.named, p.1 ≠ [])
    (hkv : ∀ p ∈ cfg.named, p.2 ≠ "eof")
    (hm1 : ∀ (c : Char) (rest : List Char), (cfg.matchOther (c :: rest)).2 ≠ [])
    (hm2 : ∀ rem, (cfg.matchOther rem).1 ≠ "eof")
    (c : Char) (rest : List Char) (hnl : '\n' ∈ c :: rest) :
    ∃ tok k, tokStep cfg (c :: rest) = Except.ok (tok, k) ∧ 1 ≤ k ∧
      tok.kind ≠ "eof" := by
  unfold tokStep
  cases hfind : (sortedNamed cfg).find? (fun p => startsWith p.1 (c :: rest)) with
  | some p =>
      have hpn : p ∈ cfg.named :=
        (List.mergeSort_perm cfg.named _).mem_iff.mp (List.mem_of_find?_eq_some hfind)
      have hlen : 1 ≤ p.1.length :=
        List.length_pos.mpr (hk p hpn)
      exact ⟨⟨p.2, p.1⟩, p.1.length, rfl, hlen, hkv p hpn⟩
  | none =>
      dsimp only
      by_cases hws : c ≠ '\n' ∧ c.isWhitespace
      · rw [if_pos hws]
        exact ⟨⟨"whitespace", [c]⟩, 1, rfl, le_refl 1, by simp⟩
      · rw [if_neg hws]
        by_cases hcm : c = '#'
        · rw [if_pos hcm]
          obtain ⟨cm, hcmok⟩ := handleComment_ok hnl
          rw [hcmok]
          exact ⟨⟨"comment", cm⟩, cm.length + 1, rfl, by omega, by simp⟩
        · rw [if_neg hcm]
          by_cases hnlc : c = '\n'
          · rw [if_pos hnlc]
            exact ⟨⟨"newline", [c]⟩, 1, rfl, le_refl 1, by simp⟩
          · rw [if_neg hnlc]
            refine ⟨⟨(cfg.matchOther (c :: rest)).1, (cfg.matchOther (c :: rest)).2⟩,
              (cfg.matchOther (c :: rest)).2.length, rfl, ?_, hm2 _⟩
            exact List.length_pos.mpr (hm1 c rest)

/-- The fuelled tokenizer loop succeeds with enough fuel, and its token
list is non-empty, ends with the EOF token, and holds exactly one token
of kind "eof". -/
theorem tokenizeAux_ok (cfg : TokCfg) (input : List Char)
    (hk : ∀ p ∈ cfg.named, p.1 ≠ [])
    (hkv : ∀ p ∈ cfg.named, p.2 ≠ "eof")
    (hm1 : ∀ (c : Char) (rest : List Char), (cfg.matchOther (c :: rest)).2 ≠ [])
    (hm2 : ∀ rem, (cfg.matchOther rem).1 ≠ "eof") :
    ∀ (n j : Nat), (tokCode input).length - j ≤ n →
      ∃ ts, tokenizeAux cfg n ((tokCode input).drop j) = Except.ok ts ∧
        ts ≠ [] ∧ ts.getLast? = some eofToken ∧
        ts.countP (fun t => t.kind == "eof") = 1 := by
  intro n
  induction n with
  | zero =>
      intro j hfuel
      have hnil : (tokCode input).drop j = [] := by
        rw [List.drop_eq_nil_iff]
        omega
      rw [hnil]
      exact ⟨[eofToken], rfl, by simp, by simp, by simp [eofToken]⟩
  | succ n ih =>
      intro j hfuel
      cases hrem : (tokCode input).drop j with
      | nil =>
          exact ⟨[eofToken], rfl, by simp, by simp, by simp [eofToken]⟩
      | cons c rest =>
          have hjlt : j < (tokCode input).length := by
            by_contra hge
            rw [List.drop_eq_nil_iff.mpr (by omega)] at hrem
            cases hrem
          have hnl : '\n' ∈ c :: rest := by
            rw [← hrem]
            exact newline_mem_drop input j hjlt
          obtain ⟨tok, k, hstep, hk1, hkind⟩ :=
            tokStep_ok cfg hk hkv hm1 hm2 c rest hnl
          have hdropk : (c :: rest).drop k = (tokCode input).drop (j + k) := by
            rw [← hrem, List.drop_drop]
          obtain ⟨ts, hts, htsne, htslast, htscount⟩ :=
            ih (j + k) (by omega)
          refine ⟨tok :: ts, ?_, by simp, ?_, ?_⟩
          · show (match tokStep cfg (c :: rest) with
              | .error e => Except.error e
              | .ok (tok, k) =>
                  (tokenizeAux cfg n ((c :: rest).drop k)).map
                    (fun ts => tok :: ts)) = Except.ok (tok :: ts)
            rw [hstep]
            dsimp only
            rw [hdropk, hts]
            rfl
          · rw [List.getLast?_eq_getLast_of_ne_nil (List.cons_ne_nil tok ts),
              List.getLast_cons htsne,
              ← List.getLast?_eq_getLast_of_ne_nil htsne]
            exact htslast
          · rw [List.countP_cons]
            rw [if_neg (by simp [hkind])]
            exact htscount

/-- C8: for every input string, the tokenizer's stream is a finite list
whose last element is the EOF token; a token of kind "eof" is yielded
exactly once, and it appears only after the loop has consumed every
character of code + "\n" (the loop only ends, and the model only emits
EOF, on an empty remainder).  The configuration hypotheses say the
named-token keys are non-empty, no named token is mapped to the kind
"eof", and the number-or-unknown matcher returns a non-empty lexeme of
a kind other than "eof" — all guaranteed by the source. -/
theorem tokenize_eof_c8 (cfg : TokCfg) (input : List Char)
    (hk : ∀ p ∈ cfg.named, p.1 ≠ [])
    (hkv : ∀ p ∈ cfg.named, p.2 ≠ "eof")
    (hm1 : ∀ (c : Char) (rest : List Char), (cfg.matchOther (c :: rest)).2 ≠ [])
    (hm2 : ∀ rem, (cfg.matchOther rem).1 ≠ "eof") :
    ∃ ts, tokenize cfg input = Except.ok ts ∧ ts ≠ [] ∧
      ts.getLast? = some eofToken ∧
      ts.countP (fun t => t.kind == "eof") = 1 := by
  have h := tokenizeAux_ok cfg input hk hkv hm1 hm2 (tokCode input).length 0
    (by omega)
  rw [List.drop_zero] at h
  exact h

/-- Witness for C8: the configuration with the named token "+" ↦ "plus"
and a one-character fallback, on the input "1+2". -/
theorem tokenize_eof_c8_witness :
    ∃ ts, tokenize cfgW ['1', '+', '2'] = Except.ok ts ∧ ts ≠ [] ∧
      ts.getLast? = some eofToken ∧
      ts.countP (fun t => t.kind == "eof") = 1 :=
  tokenize_eof_c8 cfgW ['1', '+', '2'] (by decide) (by decide)
    (fun c rest => by simp [cfgW]) (fun rem => by simp [cfgW])

end PDA
